import Mathlib

/-!
Verification of the gate-times service (`mcp_api.py`, `extract_gate_times.py`).

The tide samples carry exact instants and heights; both are modelled as
rationals (`ℚ`), timestamps measured in minutes.  The conversion of an
instant to a local calendar date (`strftime %Y-%m-%d` in the configured
zone) is abstracted as a function `dayOf : ℚ → ℤ`; the concrete
`dayOfFloor` instantiates it with plain floor division by the length of
a day, which is the UTC-aligned special case.
-/

namespace GateTimes

/-- One entry of `app.state.tide_heights_cache`: an absolute instant
(minutes) and a tide height. -/
structure Sample where
  dt : ℚ
  height : ℚ
deriving DecidableEq

/-- One derived event, as built in `calculate_gate_times`:
`{"datetime": crossing, "action": "lower"/"raise", "height": threshold}`. -/
structure GateEvent where
  datetime : ℚ
  action : String
  height : ℚ
deriving DecidableEq

/-- `app.state.gate_times`: an insertion-ordered dict from day key to the
events of that day, modelled as an association list. -/
abbrev EventsByDay := List (ℤ × List GateEvent)

/-- `events.setdefault(date_key, []).append(event)`: append `e` to the list
stored under `k`, creating the key at the end if absent. -/
def setdefaultAppend (m : EventsByDay) (k : ℤ) (e : GateEvent) : EventsByDay :=
  match m with
  | [] => [(k, [e])]
  | p :: rest => if p.1 = k then (p.1, p.2 ++ [e]) :: rest else p :: setdefaultAppend rest k e

/-- Total number of events stored in the map. -/
def numEvents : EventsByDay → ℕ
  | [] => 0
  | p :: rest => p.2.length + numEvents rest

/-- Guard of the first branch: `prev_height < threshold <= height`. -/
def upGuard (threshold : ℚ) (p c : Sample) : Prop :=
  p.height < threshold ∧ threshold ≤ c.height

/-- Guard of the second branch: `prev_height > threshold >= height`. -/
def downGuard (threshold : ℚ) (p c : Sample) : Prop :=
  p.height > threshold ∧ threshold ≥ c.height

instance (threshold : ℚ) (p c : Sample) : Decidable (upGuard threshold p c) := by
  unfold upGuard; infer_instance

instance (threshold : ℚ) (p c : Sample) : Decidable (downGuard threshold p c) := by
  unfold downGuard; infer_instance

/-- Interpolated instant of an upward crossing:
`prev_dt + (dt - prev_dt) * (threshold - prev_height) / (height - prev_height)`. -/
def upCrossing (threshold : ℚ) (p c : Sample) : ℚ :=
  p.dt + (c.dt - p.dt) * ((threshold - p.height) / (c.height - p.height))

/-- Interpolated instant of a downward crossing:
`prev_dt + (dt - prev_dt) * (prev_height - threshold) / (prev_height - height)`. -/
def downCrossing (threshold : ℚ) (p c : Sample) : ℚ :=
  p.dt + (c.dt - p.dt) * ((p.height - threshold) / (p.height - c.height))

/-- Body of the loop of `calculate_gate_times` for one consecutive pair
`(p, c)` of samples: emit an event when one of the two guards holds. -/
def gateStep (threshold : ℚ) (dayOf : ℚ → ℤ) (p c : Sample) (m : EventsByDay) : EventsByDay :=
  if upGuard threshold p c then
    setdefaultAppend m (dayOf (upCrossing threshold p c))
      ⟨upCrossing threshold p c, "lower", threshold⟩
  else if downGuard threshold p c then
    setdefaultAppend m (dayOf (downCrossing threshold p c))
      ⟨downCrossing threshold p c, "raise", threshold⟩
  else m

/-- The scan of `calculate_gate_times`, carrying `(prev_dt, prev_height)`. -/
def calcAux (threshold : ℚ) (dayOf : ℚ → ℤ) : Sample → List Sample → EventsByDay → EventsByDay
  | _, [], m => m
  | p, c :: rest, m => calcAux threshold dayOf c rest (gateStep threshold dayOf p c m)

/-- `calculate_gate_times` as a pure function of the sample series it
iterates over (the cache), the threshold `GATE_OPEN_HEIGHT` and the local
date conversion. -/
def calculate_gate_times (threshold : ℚ) (dayOf : ℚ → ℤ) : List Sample → EventsByDay
  | [] => []
  | p :: rest => calcAux threshold dayOf p rest []

/-- Calendar date of an instant for a zone aligned with UTC: floor
division of the minute count by the 1440 minutes of a day. -/
def dayOfFloor (t : ℚ) : ℤ := ⌊t / 1440⌋

lemma dayOfFloor_mono : Monotone dayOfFloor := by
  intro a b h
  unfold dayOfFloor
  exact Int.floor_le_floor (by gcongr)

lemma frac_bounds (num den : ℚ) (h1 : 0 ≤ num) (h2 : num ≤ den) (h3 : 0 < den) :
    0 ≤ num / den ∧ num / den ≤ 1 :=
  ⟨div_nonneg h1 h3.le, (div_le_one h3).mpr h2⟩

lemma interp_bounds (t0 t1 f : ℚ) (hdt : t0 ≤ t1) (h0 : 0 ≤ f) (h1 : f ≤ 1) :
    t0 ≤ t0 + (t1 - t0) * f ∧ t0 + (t1 - t0) * f ≤ t1 := by
  constructor
  · nlinarith [mul_nonneg (sub_nonneg.mpr hdt) h0]
  · nlinarith [mul_le_of_le_one_right (sub_nonneg.mpr hdt) h1]

lemma upCrossing_bounds {threshold : ℚ} {p c : Sample} (h : upGuard threshold p c)
    (hdt : p.dt ≤ c.dt) :
    p.dt ≤ upCrossing threshold p c ∧ upCrossing threshold p c ≤ c.dt := by
  obtain ⟨h1, h2⟩ := h
  have hden : 0 < c.height - p.height := by linarith
  have hfrac := frac_bounds (threshold - p.height) (c.height - p.height)
    (by linarith) (by linarith) hden
  unfold upCrossing
  exact interp_bounds p.dt c.dt _ hdt hfrac.1 hfrac.2

lemma downCrossing_bounds {threshold : ℚ} {p c : Sample} (h : downGuard threshold p c)
    (hdt : p.dt ≤ c.dt) :
    p.dt ≤ downCrossing threshold p c ∧ downCrossing threshold p c ≤ c.dt := by
  obtain ⟨h1, h2⟩ := h
  have hden : 0 < p.height - c.height := by linarith
  have hfrac := frac_bounds (p.height - threshold) (p.height - c.height)
    (by linarith) (by linarith) hden
  unfold downCrossing
  exact interp_bounds p.dt c.dt _ hdt hfrac.1 hfrac.2

lemma not_upGuard_of_downGuard {threshold : ℚ} {p c : Sample} (h : downGuard threshold p c) :
    ¬ upGuard threshold p c :=
  fun h' => absurd h'.1 (not_lt.mpr h.1.le)

lemma numEvents_setdefaultAppend (m : EventsByDay) (k : ℤ) (e : GateEvent) :
    numEvents (setdefaultAppend m k e) = numEvents m + 1 := by
  induction m with
  | nil => simp [setdefaultAppend, numEvents]
  | cons p rest ih =>
    by_cases h : p.1 = k <;> simp [setdefaultAppend, h, numEvents, ih] <;> omega

lemma downCrossing_eq_upCrossing (threshold : ℚ) (p c : Sample) :
    downCrossing threshold p c =
      p.dt + (c.dt - p.dt) * ((threshold - p.height) / (c.height - p.height)) := by
  unfold downCrossing
  rw [show p.height - threshold = -(threshold - p.height) by ring,
    show p.height - c.height = -(c.height - p.height) by ring, neg_div_neg_eq]

/-- C1: for a consecutive pair `(p, c)` with `p.height < threshold ≤ c.height`
the loop body emits exactly one event (the map grows by one event, appended
under the day of the crossing) whose timestamp is exactly
`p.dt + (c.dt - p.dt) * (threshold - p.height) / (c.height - p.height)` and,
when the pair is in chronological order, lies in `[p.dt, c.dt]`; symmetrically
for `p.height > threshold ≥ c.height` the downward event is emitted at the
same interpolated instant. -/
theorem c1_crossing_interpolated (threshold : ℚ) (dayOf : ℚ → ℤ) (p c : Sample)
    (m : EventsByDay) :
    (upGuard threshold p c →
      gateStep threshold dayOf p c m =
        setdefaultAppend m (dayOf (upCrossing threshold p c))
          ⟨upCrossing threshold p c, "lower", threshold⟩ ∧
      numEvents (gateStep threshold dayOf p c m) = numEvents m + 1 ∧
      upCrossing threshold p c =
        p.dt + (c.dt - p.dt) * ((threshold - p.height) / (c.height - p.height)) ∧
      (p.dt ≤ c.dt → p.dt ≤ upCrossing threshold p c ∧ upCrossing threshold p c ≤ c.dt)) ∧
    (downGuard threshold p c →
      gateStep threshold dayOf p c m =
        setdefaultAppend m (dayOf (downCrossing threshold p c))
          ⟨downCrossing threshold p c, "raise", threshold⟩ ∧
      numEvents (gateStep threshold dayOf p c m) = numEvents m + 1 ∧
      downCrossing threshold p c =
        p.dt + (c.dt - p.dt) * ((threshold - p.height) / (c.height - p.height)) ∧
      (p.dt ≤ c.dt → p.dt ≤ downCrossing threshold p c ∧ downCrossing threshold p c ≤ c.dt)) := by
  constructor
  · intro h
    have hstep : gateStep threshold dayOf p c m =
        setdefaultAppend m (dayOf (upCrossing threshold p c))
          ⟨upCrossing threshold p c, "lower", threshold⟩ := by
      simp [gateStep, h]
    refine ⟨hstep, ?_, rfl, fun hdt => upCrossing_bounds h hdt⟩
    rw [hstep, numEvents_setdefaultAppend]
  · intro h
    have hstep : gateStep threshold dayOf p c m =
        setdefaultAppend m (dayOf (downCrossing threshold p c))
          ⟨downCrossing threshold p c, "raise", threshold⟩ := by
      simp [gateStep, not_upGuard_of_downGuard h, h]
    refine ⟨hstep, ?_, downCrossing_eq_upCrossing threshold p c,
      fun hdt => downCrossing_bounds h hdt⟩
    rw [hstep, numEvents_setdefaultAppend]

lemma c1_guard_example : upGuard 4 ⟨540, 3⟩ ⟨570, 9/2⟩ := by
  constructor <;> norm_num

lemma c1_dt_example : ((⟨540, 3⟩ : Sample)).dt ≤ ((⟨570, 9/2⟩ : Sample)).dt := by
  norm_num

/-- Witness for C1 at the spec example: series step `(09:00, 3.0) → (09:30, 4.5)`
with threshold 4 (minutes of day: 540 and 570). -/
theorem c1_witness :
    gateStep 4 dayOfFloor ⟨540, 3⟩ ⟨570, 9/2⟩ [] =
      setdefaultAppend [] (dayOfFloor (upCrossing 4 ⟨540, 3⟩ ⟨570, 9/2⟩))
        ⟨upCrossing 4 ⟨540, 3⟩ ⟨570, 9/2⟩, "lower", 4⟩ ∧
    numEvents (gateStep 4 dayOfFloor ⟨540, 3⟩ ⟨570, 9/2⟩ []) = numEvents [] + 1 ∧
    upCrossing 4 ⟨540, 3⟩ ⟨570, 9/2⟩ = 540 + (570 - 540) * ((4 - 3) / (9/2 - 3)) ∧
    (540 ≤ upCrossing 4 ⟨540, 3⟩ ⟨570, 9/2⟩ ∧ upCrossing 4 ⟨540, 3⟩ ⟨570, 9/2⟩ ≤ 570) := by
  have h := (c1_crossing_interpolated 4 dayOfFloor ⟨540, 3⟩ ⟨570, 9/2⟩ []).1 c1_guard_example
  exact ⟨h.1, h.2.1, h.2.2.1, h.2.2.2 c1_dt_example⟩

/-- C6: two consecutive samples of equal height satisfy neither crossing
guard (the loop body leaves the map unchanged), and whenever a guard does
hold the denominator of the interpolation is nonzero, so the division in
`calculate_gate_times` is never reached with a zero denominator. -/
theorem c6_no_zero_denominator (threshold : ℚ) (p c : Sample) :
    (p.height = c.height →
      ¬ upGuard threshold p c ∧ ¬ downGuard threshold p c ∧
      ∀ (dayOf : ℚ → ℤ) (m : EventsByDay), gateStep threshold dayOf p c m = m) ∧
    (upGuard threshold p c → c.height - p.height ≠ 0) ∧
    (downGuard threshold p c → p.height - c.height ≠ 0) := by
  refine ⟨fun heq => ?_, fun h => ?_, fun h => ?_⟩
  · have h1 : ¬ upGuard threshold p c := fun h => by
      obtain ⟨ha, hb⟩ := h; rw [heq] at ha; exact absurd hb (not_le.mpr ha)
    have h2 : ¬ downGuard threshold p c := fun h => by
      obtain ⟨ha, hb⟩ := h; rw [heq] at ha; exact absurd hb (not_le.mpr ha)
    exact ⟨h1, h2, fun dayOf m => by simp [gateStep, h1, h2]⟩
  · have : p.height < c.height := lt_of_lt_of_le h.1 h.2
    exact sub_ne_zero_of_ne (ne_of_gt this)
  · have : c.height < p.height := lt_of_le_of_lt h.2 h.1
    exact sub_ne_zero_of_ne (ne_of_gt this)

lemma c6_guard_example : upGuard 4 ⟨0, 3⟩ ⟨5, 5⟩ := by
  constructor <;> norm_num

/-- Witness for C6: equal heights at 2 never trigger a guard, and a held
guard gives a nonzero denominator. -/
theorem c6_witness :
    (¬ upGuard 4 ⟨0, 2⟩ ⟨10, 2⟩ ∧ ¬ downGuard 4 ⟨0, 2⟩ ⟨10, 2⟩ ∧
      gateStep 4 dayOfFloor ⟨0, 2⟩ ⟨10, 2⟩ [] = []) ∧
    ((⟨5, 5⟩ : Sample).height - (⟨0, 3⟩ : Sample).height ≠ 0) := by
  have h := (c6_no_zero_denominator 4 ⟨0, 2⟩ ⟨10, 2⟩).1 rfl
  exact ⟨⟨h.1, h.2.1, h.2.2 dayOfFloor []⟩,
    (c6_no_zero_denominator 4 ⟨0, 3⟩ ⟨5, 5⟩).2.1 c6_guard_example⟩

/-- Every stored event is filed under the day of its own interpolated
instant. -/
def keyInv (dayOf : ℚ → ℤ) (m : EventsByDay) : Prop :=
  ∀ p ∈ m, ∀ e ∈ p.2, dayOf e.datetime = p.1

/-- Every stored event happened no later than the bound `B`. -/
def boundInv (m : EventsByDay) (B : ℚ) : Prop :=
  ∀ p ∈ m, ∀ e ∈ p.2, e.datetime ≤ B

/-- Within each day the stored events are in chronological order. -/
def sortedInv (m : EventsByDay) : Prop :=
  ∀ p ∈ m, p.2.Pairwise (fun a b => a.datetime ≤ b.datetime)

lemma setdefaultAppend_forall (P : ℤ → GateEvent → Prop) :
    ∀ (m : EventsByDay) (k : ℤ) (e : GateEvent),
      (∀ p ∈ m, ∀ x ∈ p.2, P p.1 x) → P k e →
      ∀ p ∈ setdefaultAppend m k e, ∀ x ∈ p.2, P p.1 x := by
  intro m
  induction m with
  | nil =>
    intro k e _ hP p hp x hx
    simp only [setdefaultAppend, List.mem_singleton] at hp
    subst hp
    simp only [List.mem_singleton] at hx
    subst hx
    exact hP
  | cons q rest ih =>
    intro k e hall hP p hp x hx
    by_cases hq : q.1 = k
    · simp only [setdefaultAppend, if_pos hq] at hp
      rcases List.mem_cons.mp hp with hp | hp
      · subst hp
        rcases List.mem_append.mp hx with hx | hx
        · exact hall q (List.mem_cons_self _ _) x hx
        · simp only [List.mem_singleton] at hx
          subst hx
          rw [show (q.1, q.2 ++ [x]).1 = k from hq]
          exact hP
      · exact hall p (List.mem_cons_of_mem _ hp) x hx
    · simp only [setdefaultAppend, if_neg hq] at hp
      rcases List.mem_cons.mp hp with hp | hp
      · subst hp
        exact hall p (List.mem_cons_self _ _) x hx
      · exact ih k e (fun r hr => hall r (List.mem_cons_of_mem _ hr)) hP p hp x hx

lemma setdefaultAppend_sorted :
    ∀ (m : EventsByDay) (k : ℤ) (e : GateEvent),
      sortedInv m → (∀ p ∈ m, ∀ x ∈ p.2, x.datetime ≤ e.datetime) →
      sortedInv (setdefaultAppend m k e) := by
  intro m
  induction m with
  | nil =>
    intro k e _ _ p hp
    simp only [setdefaultAppend, List.mem_singleton] at hp
    subst hp
    simp
  | cons q rest ih =>
    intro k e hs hb p hp
    by_cases hq : q.1 = k
    · simp only [setdefaultAppend, if_pos hq] at hp
      rcases List.mem_cons.mp hp with hp | hp
      · subst hp
        show (q.2 ++ [e]).Pairwise _
        rw [List.pairwise_append]
        refine ⟨hs q (List.mem_cons_self _ _), List.pairwise_singleton _ _, ?_⟩
        intro a ha b hb'
        simp only [List.mem_singleton] at hb'
        subst hb'
        exact hb q (List.mem_cons_self _ _) a ha
      · exact hs p (List.mem_cons_of_mem _ hp)
    · simp only [setdefaultAppend, if_neg hq] at hp
      rcases List.mem_cons.mp hp with hp | hp
      · subst hp
        exact hs p (List.mem_cons_self _ _)
      · exact ih k e (fun r hr => hs r (List.mem_cons_of_mem _ hr))
          (fun r hr => hb r (List.mem_cons_of_mem _ hr)) p hp

lemma gateStep_keyInv {threshold : ℚ} {dayOf : ℚ → ℤ} {p c : Sample} {m : EventsByDay}
    (hk : keyInv dayOf m) : keyInv dayOf (gateStep threshold dayOf p c m) := by
  unfold keyInv at hk ⊢
  unfold gateStep
  split
  · exact setdefaultAppend_forall (fun k x => dayOf x.datetime = k) m _ _ hk rfl
  split
  · exact setdefaultAppend_forall (fun k x => dayOf x.datetime = k) m _ _ hk rfl
  · exact hk

lemma calcAux_keyInv {threshold : ℚ} {dayOf : ℚ → ℤ} :
    ∀ (rest : List Sample) (p : Sample) (m : EventsByDay),
      keyInv dayOf m → keyInv dayOf (calcAux threshold dayOf p rest m)
  | [], _, _, hk => hk
  | c :: rest, _, _, hk => calcAux_keyInv rest c _ (gateStep_keyInv hk)

lemma calculate_keyInv (threshold : ℚ) (dayOf : ℚ → ℤ) (series : List Sample) :
    keyInv dayOf (calculate_gate_times threshold dayOf series) := by
  cases series with
  | nil => intro p hp; simp [calculate_gate_times] at hp
  | cons p rest =>
    exact calcAux_keyInv rest p [] (fun q hq => by simp at hq)

lemma gateStep_inv {threshold : ℚ} {dayOf : ℚ → ℤ} {p c : Sample} {m : EventsByDay} {B : ℚ}
    (hs : sortedInv m) (hb : boundInv m B) (hBp : B ≤ p.dt) (hpc : p.dt ≤ c.dt) :
    sortedInv (gateStep threshold dayOf p c m) ∧
    boundInv (gateStep threshold dayOf p c m) c.dt := by
  unfold boundInv at hb ⊢
  unfold sortedInv at hs ⊢
  unfold gateStep
  split
  case isTrue h =>
    have hcr := upCrossing_bounds h hpc
    constructor
    · exact setdefaultAppend_sorted m _ _ hs
        (fun q hq x hx => le_trans (le_trans (hb q hq x hx) hBp) hcr.1)
    · exact setdefaultAppend_forall (fun _ x => x.datetime ≤ c.dt) m _ _
        (fun q hq x hx => le_trans (le_trans (hb q hq x hx) hBp) hpc) hcr.2
  case isFalse h1 =>
    split
    case isTrue h =>
      have hcr := downCrossing_bounds h hpc
      constructor
      · exact setdefaultAppend_sorted m _ _ hs
          (fun q hq x hx => le_trans (le_trans (hb q hq x hx) hBp) hcr.1)
      · exact setdefaultAppend_forall (fun _ x => x.datetime ≤ c.dt) m _ _
          (fun q hq x hx => le_trans (le_trans (hb q hq x hx) hBp) hpc) hcr.2
    case isFalse h2 =>
      exact ⟨hs, fun q hq x hx => le_trans (le_trans (hb q hq x hx) hBp) hpc⟩

lemma calcAux_inv {threshold : ℚ} {dayOf : ℚ → ℤ} :
    ∀ (rest : List Sample) (p : Sample) (m : EventsByDay),
      List.Chain' (fun a b => a.dt ≤ b.dt) (p :: rest) →
      sortedInv m → boundInv m p.dt →
      sortedInv (calcAux threshold dayOf p rest m) := by
  intro rest
  induction rest with
  | nil => intro p m _ hs _; exact hs
  | cons c rest ih =>
    intro p m hchain hs hb
    have hpc : p.dt ≤ c.dt := (List.chain'_cons.mp hchain).1
    have hstep := @gateStep_inv threshold dayOf p c m p.dt hs hb (le_refl p.dt) hpc
    exact ih c _ (List.chain'_cons.mp hchain).2 hstep.1 hstep.2

lemma calculate_sortedInv (threshold : ℚ) (dayOf : ℚ → ℤ) (series : List Sample)
    (hchain : List.Chain' (fun a b => a.dt ≤ b.dt) series) :
    sortedInv (calculate_gate_times threshold dayOf series) := by
  cases series with
  | nil => intro p hp; simp [calculate_gate_times] at hp
  | cons p rest =>
    exact calcAux_inv rest p [] hchain (fun q hq => by simp at hq) (fun q hq => by simp at hq)

lemma c5_calc_example :
    calculate_gate_times 4 dayOfFloor [⟨1430, 39/10⟩, ⟨1450, 41/10⟩] =
      [(1, [⟨1440, "lower", 4⟩])] := by
  have hg : upGuard 4 ⟨1430, 39/10⟩ ⟨1450, 41/10⟩ := by constructor <;> norm_num
  have hcr : upCrossing 4 ⟨1430, 39/10⟩ ⟨1450, 41/10⟩ = 1440 := by
    unfold upCrossing; norm_num
  have hd : dayOfFloor 1440 = 1 := by norm_num [dayOfFloor]
  show gateStep 4 dayOfFloor ⟨1430, 39/10⟩ ⟨1450, 41/10⟩ [] = _
  rw [gateStep, if_pos hg, hcr, hd]
  simp [setdefaultAppend]

/-- C5: every derived event is filed under the calendar day of its own
interpolated crossing instant, for any series and any local-date function;
in particular the midnight-straddling pair `(23:50, 3.9), (00:10 next day,
4.1)` with threshold 4 yields one event filed under the next day (day 1),
although the first bracketing sample lies on day 0. -/
theorem c5_daykey_of_interpolated_instant :
    (∀ (threshold : ℚ) (dayOf : ℚ → ℤ) (series : List Sample),
      keyInv dayOf (calculate_gate_times threshold dayOf series)) ∧
    calculate_gate_times 4 dayOfFloor [⟨1430, 39/10⟩, ⟨1450, 41/10⟩] =
      [(1, [⟨1440, "lower", 4⟩])] ∧
    dayOfFloor 1430 = 0 ∧ dayOfFloor 1440 = 1 := by
  refine ⟨calculate_keyInv, c5_calc_example, ?_, ?_⟩ <;> norm_num [dayOfFloor]

/-- Witness for C5: the day-key invariant instantiated at the midnight
example series. -/
theorem c5_witness :
    keyInv dayOfFloor (calculate_gate_times 4 dayOfFloor [⟨1430, 39/10⟩, ⟨1450, 41/10⟩]) :=
  c5_daykey_of_interpolated_instant.1 4 dayOfFloor [⟨1430, 39/10⟩, ⟨1450, 41/10⟩]

lemma flatMap_sorted {dayOf : ℚ → ℤ} (hmono : Monotone dayOf) :
    ∀ ms : EventsByDay, keyInv dayOf ms → sortedInv ms →
      (ms.map Prod.fst).Pairwise (fun a b => a < b) →
      (ms.flatMap Prod.snd).Pairwise (fun a b => a.datetime ≤ b.datetime) := by
  intro ms
  induction ms with
  | nil => intro _ _ _; simp
  | cons q rest ih =>
    intro hk hs hp
    rw [List.flatMap_cons, List.pairwise_append]
    have hp' := List.pairwise_cons.mp ((List.pairwise_map).mp hp)
    refine ⟨hs q (List.mem_cons_self _ _),
      ih (fun r hr => hk r (List.mem_cons_of_mem _ hr))
        (fun r hr => hs r (List.mem_cons_of_mem _ hr))
        ((List.pairwise_map).mpr hp'.2), ?_⟩
    intro a ha b hb
    obtain ⟨r, hr, hbr⟩ := List.mem_flatMap.mp hb
    have hkey : q.1 < r.1 := hp'.1 r hr
    have h1 : dayOf a.datetime = q.1 := hk q (List.mem_cons_self _ _) a ha
    have h2 : dayOf b.datetime = r.1 := hk r (List.mem_cons_of_mem _ hr) b hbr
    by_contra hcon
    push_neg at hcon
    have := hmono hcon.le
    rw [h2, h1] at this
    exact absurd hkey (not_lt.mpr this)

/-- C8: for a series with non-decreasing timestamps and a monotone
local-date function, the events stored under each day are chronologically
ordered, and concatenating the per-day sequences of any arrangement of the
map whose day keys are in ascending order yields a fully chronological
sequence. -/
theorem c8_chronological_order (threshold : ℚ) (dayOf : ℚ → ℤ) (series : List Sample)
    (hchain : List.Chain' (fun a b => a.dt ≤ b.dt) series) (hmono : Monotone dayOf) :
    sortedInv (calculate_gate_times threshold dayOf series) ∧
    ∀ ms : EventsByDay, ms.Perm (calculate_gate_times threshold dayOf series) →
      (ms.map Prod.fst).Pairwise (fun a b => a < b) →
      (ms.flatMap Prod.snd).Pairwise (fun a b => a.datetime ≤ b.datetime) := by
  have hs := calculate_sortedInv threshold dayOf series hchain
  have hk := calculate_keyInv threshold dayOf series
  refine ⟨hs, fun ms hperm hkeys => ?_⟩
  exact flatMap_sorted hmono ms
    (fun r hr => hk r (hperm.mem_iff.mp hr))
    (fun r hr => hs r (hperm.mem_iff.mp hr)) hkeys

lemma c8_chain_example :
    List.Chain' (fun a b => a.dt ≤ b.dt)
      [(⟨1400, 3⟩ : Sample), ⟨1430, 5⟩, ⟨1460, 3⟩] := by
  refine List.chain'_cons.mpr ⟨?_, List.chain'_cons.mpr ⟨?_, List.chain'_singleton _⟩⟩ <;> norm_num

lemma c8_calc_example :
    calculate_gate_times 4 dayOfFloor [⟨1400, 3⟩, ⟨1430, 5⟩, ⟨1460, 3⟩] =
      [(0, [⟨1415, "lower", 4⟩]), (1, [⟨1445, "raise", 4⟩])] := by
  have hg1 : upGuard 4 ⟨1400, 3⟩ ⟨1430, 5⟩ := by constructor <;> norm_num
  have hg2 : downGuard 4 ⟨1430, 5⟩ ⟨1460, 3⟩ := by constructor <;> norm_num
  have hcr1 : upCrossing 4 ⟨1400, 3⟩ ⟨1430, 5⟩ = 1415 := by unfold upCrossing; norm_num
  have hcr2 : downCrossing 4 ⟨1430, 5⟩ ⟨1460, 3⟩ = 1445 := by unfold downCrossing; norm_num
  have hd1 : dayOfFloor 1415 = 0 := by norm_num [dayOfFloor]
  have hd2 : dayOfFloor 1445 = 1 := by norm_num [dayOfFloor]
  have h1 : gateStep 4 dayOfFloor ⟨1400, 3⟩ ⟨1430, 5⟩ [] =
      [(0, [⟨1415, "lower", 4⟩])] := by
    rw [gateStep, if_pos hg1, hcr1, hd1]
    simp [setdefaultAppend]
  have h2 : gateStep 4 dayOfFloor ⟨1430, 5⟩ ⟨1460, 3⟩ [(0, [⟨1415, "lower", 4⟩])] =
      [(0, [⟨1415, "lower", 4⟩]), (1, [⟨1445, "raise", 4⟩])] := by
    rw [gateStep, if_neg (not_upGuard_of_downGuard hg2), if_pos hg2, hcr2, hd2]
    simp [setdefaultAppend]
  show gateStep 4 dayOfFloor ⟨1430, 5⟩ ⟨1460, 3⟩ (gateStep 4 dayOfFloor ⟨1400, 3⟩ ⟨1430, 5⟩ []) = _
  rw [h1, h2]

/-- Witness for C8 at a concrete three-sample series producing one event
on each of two days. -/
theorem c8_witness :
    sortedInv (calculate_gate_times 4 dayOfFloor [⟨1400, 3⟩, ⟨1430, 5⟩, ⟨1460, 3⟩]) ∧
    (([(0, [⟨1415, "lower", 4⟩]), (1, [⟨1445, "raise", 4⟩])] : EventsByDay).flatMap
        Prod.snd).Pairwise (fun a b => a.datetime ≤ b.datetime) := by
  have h := c8_chronological_order 4 dayOfFloor [⟨1400, 3⟩, ⟨1430, 5⟩, ⟨1460, 3⟩]
    c8_chain_example dayOfFloor_mono
  refine ⟨h.1, h.2 _ ?_ ?_⟩
  · rw [c8_calc_example]
  · simp only [List.map_cons, List.map_nil]
    exact List.pairwise_cons.mpr ⟨by intro b hb; simp at hb; omega,
      List.pairwise_singleton _ _⟩

/-- The mutable `app.state` fields touched by the tide/gate refresh path. -/
structure TideState where
  tide_cache : List Sample
  tide_heights_cache : List Sample
  tide_heights_last_load : ℚ
  gate_times : EventsByDay
deriving DecidableEq

/-- The chunked while-loop of `load_tide_data`: extend the accumulator with
each fetched chunk until a fetch raises; the Bool records whether the loop
completed without an exception. -/
def extendChunks : List (Except Unit (List Sample)) → List Sample → List Sample × Bool
  | [], acc => (acc, true)
  | Except.error _ :: _, acc => (acc, false)
  | Except.ok chunk :: rest, acc => extendChunks rest (acc ++ chunk)

/-- `load_tide_data`: with no API key it returns at once; otherwise it first
resets `tide_cache` to `[]` and then extends it chunk by chunk, stopping at
the first fetch exception.  The Bool is `false` exactly when an exception
escaped (the state mutations made before the exception persist). -/
def load_tide_data (key : Bool) (chunks : List (Except Unit (List Sample)))
    (st : TideState) : TideState × Bool :=
  if key then
    let res := extendChunks chunks []
    ({ st with tide_cache := res.1 }, res.2)
  else (st, true)

/-- `load_tide_heights`: with no API key it returns at once; otherwise the
single fetch either raises (nothing is assigned) or its localized result is
stored together with the new fetch timestamp. -/
def load_tide_heights (key : Bool) (fetched : Except Unit (List Sample)) (now : ℚ)
    (st : TideState) : TideState × Bool :=
  if key then
    match fetched with
    | Except.error _ => (st, false)
    | Except.ok hs =>
      ({ st with tide_heights_cache := hs, tide_heights_last_load := now }, true)
  else (st, true)

/-- The stateful `calculate_gate_times`: when the heights cache is empty it
first runs `load_tide_heights` (whose exception, if any, propagates), then
rebuilds `gate_times` from the cache it iterates over. -/
def calculate_gate_times_state (threshold : ℚ) (dayOf : ℚ → ℤ) (key : Bool)
    (fetched : Except Unit (List Sample)) (now : ℚ) (st : TideState) : TideState × Bool :=
  if st.tide_heights_cache = [] then
    match load_tide_heights key fetched now st with
    | (st1, false) => (st1, false)
    | (st1, true) =>
      ({ st1 with gate_times := calculate_gate_times threshold dayOf st1.tide_heights_cache },
        true)
  else
    ({ st with gate_times := calculate_gate_times threshold dayOf st.tide_heights_cache },
      true)

/-- Counterexample to C2: `load_tide_data` clears `tide_cache` before
fetching, so a refresh whose very first chunk fetch raises leaves the cache
empty instead of restoring its pre-refresh contents. -/
theorem c2_counterexample :
    (load_tide_data true [Except.error ()] ⟨[⟨0, 0⟩], [], 0, []⟩).2 = false ∧
    (load_tide_data true [Except.error ()] ⟨[⟨0, 0⟩], [], 0, []⟩).1.tide_cache = [] ∧
    (⟨[⟨0, 0⟩], [], 0, []⟩ : TideState).tide_cache ≠ [] := by
  refine ⟨rfl, rfl, ?_⟩
  simp

/-- C2 (amended): a failed `load_tide_heights` leaves the whole state
untouched, and a failed stateful `calculate_gate_times` likewise; a failed
`load_tide_data` leaves the heights cache, its fetch timestamp and the
derived `gate_times` untouched — but not `tide_cache`, which it clears
before fetching. -/
theorem c2_failure_isolation (key : Bool) (chunks : List (Except Unit (List Sample)))
    (fetched : Except Unit (List Sample)) (now : ℚ) (st : TideState) :
    ((load_tide_heights key fetched now st).2 = false →
      (load_tide_heights key fetched now st).1 = st) ∧
    ((load_tide_data key chunks st).1.tide_heights_cache = st.tide_heights_cache ∧
      (load_tide_data key chunks st).1.tide_heights_last_load = st.tide_heights_last_load ∧
      (load_tide_data key chunks st).1.gate_times = st.gate_times) ∧
    (∀ (threshold : ℚ) (dayOf : ℚ → ℤ),
      (calculate_gate_times_state threshold dayOf key fetched now st).2 = false →
      (calculate_gate_times_state threshold dayOf key fetched now st).1 = st) := by
  refine ⟨?_, ?_, ?_⟩
  · intro hfail
    unfold load_tide_heights at hfail ⊢
    by_cases hk : key
    · cases fetched with
      | error e => simp [hk]
      | ok hs => simp [hk] at hfail
    · simp [hk] at hfail
  · unfold load_tide_data
    by_cases hk : key <;> simp [hk]
  · intro threshold dayOf hfail
    unfold calculate_gate_times_state at hfail ⊢
    by_cases hc : st.tide_heights_cache = []
    · simp only [hc, if_pos rfl] at hfail ⊢
      unfold load_tide_heights at hfail ⊢
      by_cases hk : key
      · cases fetched with
        | error e => simp [hk]
        | ok hs => simp [hk] at hfail
      · simp [hk] at hfail
    · simp [hc] at hfail

/-- Witness for C2 (amended) at a concrete failing fetch. -/
theorem c2_witness :
    (load_tide_heights true (Except.error ()) 0 ⟨[⟨0, 0⟩], [], 0, []⟩).1 =
      (⟨[⟨0, 0⟩], [], 0, []⟩ : TideState) ∧
    (load_tide_data true [Except.error ()] ⟨[⟨0, 0⟩], [], 0, []⟩).1.gate_times =
      (⟨[⟨0, 0⟩], [], 0, []⟩ : TideState).gate_times ∧
    (calculate_gate_times_state 4 dayOfFloor true (Except.error ()) 0
        ⟨[⟨0, 0⟩], [], 0, []⟩).1 = (⟨[⟨0, 0⟩], [], 0, []⟩ : TideState) := by
  have h := c2_failure_isolation true [Except.error ()] (Except.error ()) 0
    ⟨[⟨0, 0⟩], [], 0, []⟩
  exact ⟨h.1 rfl, h.2.1.2.2, h.2.2 4 dayOfFloor rfl⟩

/-- Which loaders one iteration of the body of `refresh_loop` invokes. -/
structure RefreshCalls where
  load_tide_data : Bool
  load_weather_data : Bool
  load_tide_heights : Bool
  calculate_gate_times : Bool
deriving DecidableEq

/-- One firing of the 12-hour `refresh_loop` body: tide extremes and
weather are always refetched and gate times always recalculated, but the
tide heights are refetched only when their cache is empty or older than 7
days (10080 minutes). -/
def refresh_loop_iteration (now : ℚ) (st : TideState) : RefreshCalls :=
  { load_tide_data := true
    load_weather_data := true
    load_tide_heights :=
      decide (st.tide_heights_cache = []) ||
        decide (now - st.tide_heights_last_load > 10080)
    calculate_gate_times := true }

/-- Counterexample to C4: with a nonempty, recently loaded heights cache a
timer firing does not trigger the tide-heights refresh. -/
theorem c4_counterexample :
    (refresh_loop_iteration 0 ⟨[], [⟨0, 4⟩], 0, []⟩).load_tide_heights = false := by
  unfold refresh_loop_iteration
  simp only [Bool.or_eq_false_iff, decide_eq_false_iff_not]
  constructor
  · simp
  · norm_num

/-- C4 (amended): every timer firing unconditionally triggers the tide
extremes refresh, the weather refresh and the gate-times recalculation, but
triggers the tide-heights refresh exactly when that cache is empty or its
last successful load is more than 7 days old. -/
theorem c4_periodic_refresh (now : ℚ) (st : TideState) :
    (refresh_loop_iteration now st).load_tide_data = true ∧
    (refresh_loop_iteration now st).load_weather_data = true ∧
    (refresh_loop_iteration now st).calculate_gate_times = true ∧
    ((refresh_loop_iteration now st).load_tide_heights = true ↔
      st.tide_heights_cache = [] ∨ now - st.tide_heights_last_load > 10080) := by
  refine ⟨rfl, rfl, rfl, ?_⟩
  unfold refresh_loop_iteration
  simp

/-- C7: the stateful gate-times derivation is idempotent — running it a
second time on the state it produced (same cache contents, same fetch
outcome, same clock) returns exactly the same state and outcome. -/
theorem c7_derivation_idempotent (threshold : ℚ) (dayOf : ℚ → ℤ) (key : Bool)
    (fetched : Except Unit (List Sample)) (now : ℚ) (st : TideState) :
    calculate_gate_times_state threshold dayOf key fetched now
        (calculate_gate_times_state threshold dayOf key fetched now st).1 =
      calculate_gate_times_state threshold dayOf key fetched now st := by
  by_cases hc : st.tide_heights_cache = []
  · by_cases hk : key
    · cases fetched with
      | error e =>
        unfold calculate_gate_times_state load_tide_heights
        simp [hc, hk]
      | ok hs =>
        by_cases hhs : hs = []
        · subst hhs
          unfold calculate_gate_times_state load_tide_heights
          simp [hc, hk]
        · unfold calculate_gate_times_state load_tide_heights
          simp [hc, hk, hhs]
    · unfold calculate_gate_times_state load_tide_heights
      simp [hc, hk]
  · unfold calculate_gate_times_state
    simp [hc]

/-- The Beaufort-scale cut points of `beaufort`
(0.5, 1.5, 3.3, 5.5, 7.9, 10.7, 13.8, 17.1, 20.7, 24.4, 28.4, 32.6 m/s). -/
def beaufortThresholds : List ℚ :=
  [1/2, 3/2, 33/10, 11/2, 79/10, 107/10, 69/5, 171/10, 207/10, 122/5, 142/5, 163/5]

/-- The `enumerate` loop of `beaufort`: return the index of the first cut
point strictly above the speed, else 12. -/
def beaufortAux : ℕ → List ℚ → ℚ → ℕ
  | _, [], _ => 12
  | i, t :: ts, speed => if speed < t then i else beaufortAux (i + 1) ts speed

/-- `beaufort`: convert a wind speed in m/s to the Beaufort scale. -/
def beaufort (speed : ℚ) : ℕ := beaufortAux 0 beaufortThresholds speed

lemma beaufortAux_le : ∀ (ts : List ℚ) (i : ℕ) (speed : ℚ),
    i + ts.length ≤ 12 → beaufortAux i ts speed ≤ 12 := by
  intro ts
  induction ts with
  | nil => intro i s _; exact le_refl 12
  | cons t ts ih =>
    intro i s h
    have h' : i + (ts.length + 1) ≤ 12 := by simpa using h
    unfold beaufortAux
    split
    · omega
    · exact ih (i + 1) s (by omega)

lemma beaufortAux_ge : ∀ (ts : List ℚ) (i : ℕ) (speed : ℚ),
    i + ts.length ≤ 12 → i ≤ beaufortAux i ts speed := by
  intro ts
  induction ts with
  | nil => intro i s h; simpa using h
  | cons t ts ih =>
    intro i s h
    have h' : i + (ts.length + 1) ≤ 12 := by simpa using h
    unfold beaufortAux
    split
    · exact le_refl i
    · exact le_trans (Nat.le_succ i) (ih (i + 1) s (by omega))

lemma beaufortAux_mono : ∀ (ts : List ℚ) (i : ℕ) (s1 s2 : ℚ),
    i + ts.length ≤ 12 → s1 ≤ s2 →
    beaufortAux i ts s1 ≤ beaufortAux i ts s2 := by
  intro ts
  induction ts with
  | nil => intro i s1 s2 _ _; exact le_refl 12
  | cons t ts ih =>
    intro i s1 s2 h hle
    have h' : i + (ts.length + 1) ≤ 12 := by simpa using h
    by_cases h2 : s2 < t
    · have h1 : s1 < t := lt_of_le_of_lt hle h2
      unfold beaufortAux
      rw [if_pos h1, if_pos h2]
    · by_cases h1 : s1 < t
      · unfold beaufortAux
        rw [if_pos h1, if_neg h2]
        exact le_trans (Nat.le_succ i) (beaufortAux_ge ts (i + 1) s2 (by omega))
      · unfold beaufortAux
        rw [if_neg h1, if_neg h2]
        exact ih (i + 1) s1 s2 (by omega) hle

/-- C9: `beaufort` always lands in `[0, 12]` and is monotone
non-decreasing in the wind speed. -/
theorem c9_beaufort_range_monotone (speed s1 s2 : ℚ) (h : s1 ≤ s2) :
    0 ≤ beaufort speed ∧ beaufort speed ≤ 12 ∧ beaufort s1 ≤ beaufort s2 := by
  have hlen : (0 : ℕ) + beaufortThresholds.length ≤ 12 := by rfl
  exact ⟨Nat.zero_le _, beaufortAux_le beaufortThresholds 0 speed hlen,
    beaufortAux_mono beaufortThresholds 0 s1 s2 hlen h⟩

lemma c9_le_example : (2 : ℚ) ≤ 7 := by norm_num

/-- Witness for C9 at concrete wind speeds. -/
theorem c9_witness : 0 ≤ beaufort 5 ∧ beaufort 5 ≤ 12 ∧ beaufort 2 ≤ beaufort 7 :=
  c9_beaufort_range_monotone 5 2 7 c9_le_example

/-- Whitespace as matched by the `\s` class. -/
def isWS (c : Char) : Bool :=
  c == ' ' || c == '\t' || c == '\n' || c == '\r' || c.toNat == 11 || c.toNat == 12

/-- Greedily drop leading whitespace. -/
def dropWSgreedy : List Char → List Char
  | [] => []
  | c :: cs => if isWS c then dropWSgreedy cs else c :: cs

/-- Match `\s+`: require at least one whitespace character, then drop the
rest of the run. -/
def dropWS : List Char → Option (List Char)
  | [] => none
  | c :: cs => if isWS c then some (dropWSgreedy cs) else none

/-- Match the `(Raise|Lower)` group at the head of the text. -/
def matchAction : List Char → Option (String × List Char)
  | 'R' :: 'a' :: 'i' :: 's' :: 'e' :: rest => some ("Raise", rest)
  | 'L' :: 'o' :: 'w' :: 'e' :: 'r' :: rest => some ("Lower", rest)
  | _ => none

/-- Try to match the pattern `(\d{2}:\d{2})\s+(Raise|Lower)` at the head of
the text, returning the two groups and the remaining text. -/
def matchAt : List Char → Option ((String × String) × List Char)
  | d1 :: d2 :: c :: d3 :: d4 :: rest =>
    if d1.isDigit && d2.isDigit && (c == ':') && d3.isDigit && d4.isDigit then
      match dropWS rest with
      | none => none
      | some rest1 =>
        match matchAction rest1 with
        | none => none
        | some (a, rest2) => some ((String.mk [d1, d2, c, d3, d4], a), rest2)
    else none
  | _ => none

/-- The scan of `re.findall`: try the pattern at every position, resuming
after the end of each non-overlapping match; the fuel is an upper bound on
the number of scan steps. -/
def findallAux : ℕ → List Char → List (String × String)
  | 0, _ => []
  | _ + 1, [] => []
  | fuel + 1, c :: cs =>
    match matchAt (c :: cs) with
    | some (item, rest) => item :: findallAux fuel rest
    | none => findallAux fuel cs

/-- `re.findall(r"(\d{2}:\d{2})\s+(Raise|Lower)", text)`. -/
def findall (text : List Char) : List (String × String) := findallAux text.length text

/-- The shape `\d{2}:\d{2}` of a matched time group. -/
def isHHMM (s : String) : Bool :=
  match s.data with
  | [a, b, c, d, e] => a.isDigit && b.isDigit && (c == ':') && d.isDigit && e.isDigit
  | _ => false

/-- The slicing loop of `parse_section` applied to the regex matches:
day `start_day + i` receives the matches `items[i*4:(i+1)*4]`. -/
def parse_section_items (items : List (String × String)) (start_day days : ℕ) :
    List (ℕ × String × String) :=
  (List.range days).flatMap fun i =>
    ((items.drop (i * 4)).take 4).map fun ta => (start_day + i, ta.1, ta.2)

/-- `parse_section`: OCR the image (here: the OCR text is the input), find
all `HH:MM Raise/Lower` matches and assign four per day. -/
def parse_section (text : List Char) (start_day days : ℕ) : List (ℕ × String × String) :=
  parse_section_items (findall text) start_day days

lemma matchAction_shape {cs : List Char} {a : String} {rest : List Char}
    (h : matchAction cs = some (a, rest)) : a = "Raise" ∨ a = "Lower" := by
  unfold matchAction at h
  split at h
  · simp only [Option.some.injEq, Prod.mk.injEq] at h
    exact Or.inl h.1.symm
  · simp only [Option.some.injEq, Prod.mk.injEq] at h
    exact Or.inr h.1.symm
  · exact absurd h (by simp)

lemma matchAt_shape {cs : List Char} {item : String × String} {rest : List Char}
    (h : matchAt cs = some (item, rest)) :
    isHHMM item.1 = true ∧ (item.2 = "Raise" ∨ item.2 = "Lower") := by
  unfold matchAt at h
  split at h
  case h_1 d1 d2 c d3 d4 rest0 =>
    split at h
    case isTrue hcond =>
      cases hws : dropWS rest0 with
      | none => simp only [hws] at h; exact Option.noConfusion h
      | some rest1 =>
        cases hac : matchAction rest1 with
        | none => simp only [hws, hac] at h; exact Option.noConfusion h
        | some pr =>
          obtain ⟨a, rest2⟩ := pr
          simp only [hws, hac, Option.some.injEq, Prod.mk.injEq] at h
          obtain ⟨h1, -⟩ := h
          subst h1
          constructor
          · simpa [isHHMM] using hcond
          · exact matchAction_shape hac
    case isFalse => exact absurd h (by simp)
  case h_2 => exact absurd h (by simp)

lemma findallAux_shape : ∀ (fuel : ℕ) (cs : List Char),
    ∀ item ∈ findallAux fuel cs,
      isHHMM item.1 = true ∧ (item.2 = "Raise" ∨ item.2 = "Lower") := by
  intro fuel
  induction fuel with
  | zero => intro cs item h; simp [findallAux] at h
  | succ n ih =>
    intro cs item h
    cases cs with
    | nil => simp [findallAux] at h
    | cons c cs' =>
      cases hm : matchAt (c :: cs') with
      | none =>
        rw [findallAux, hm] at h
        exact ih cs' item h
      | some pr =>
        obtain ⟨it, rest⟩ := pr
        rw [findallAux, hm] at h
        rcases List.mem_cons.mp h with h | h
        · subst h; exact matchAt_shape hm
        · exact ih rest item h

lemma findall_shape {text : List Char} :
    ∀ item ∈ findall text,
      isHHMM item.1 = true ∧ (item.2 = "Raise" ∨ item.2 = "Lower") :=
  findallAux_shape text.length text

lemma parse_items_mem {items : List (String × String)} {start_day days : ℕ}
    {r : ℕ × String × String} (h : r ∈ parse_section_items items start_day days) :
    start_day ≤ r.1 ∧ r.1 < start_day + days ∧ r.2 ∈ items := by
  unfold parse_section_items at h
  obtain ⟨i, hi, hr⟩ := List.mem_flatMap.mp h
  obtain ⟨ta, hta, rfl⟩ := List.mem_map.mp hr
  have hi' := List.mem_range.mp hi
  exact ⟨Nat.le_add_right _ _, by omega,
    List.mem_of_mem_drop (List.mem_of_mem_take hta)⟩

lemma parse_items_countP (items : List (String × String)) (start_day : ℕ) :
    ∀ (days d : ℕ),
      (parse_section_items items start_day days).countP (fun r => decide (r.1 = d)) ≤ 4 ∧
      (¬ (start_day ≤ d ∧ d < start_day + days) →
        (parse_section_items items start_day days).countP (fun r => decide (r.1 = d)) = 0) := by
  intro days
  induction days with
  | zero => intro d; simp [parse_section_items]
  | succ n ih =>
    intro d
    have hsplit : parse_section_items items start_day (n + 1) =
        parse_section_items items start_day n ++
          ((items.drop (n * 4)).take 4).map (fun ta => (start_day + n, ta.1, ta.2)) := by
      unfold parse_section_items
      rw [List.range_succ, List.flatMap_append]
      simp
    rw [hsplit, List.countP_append]
    by_cases hd : d = start_day + n
    · have h0 := (ih d).2 (by omega)
      have h4 : (((items.drop (n * 4)).take 4).map
          (fun ta => (start_day + n, ta.1, ta.2))).countP (fun r => decide (r.1 = d)) ≤ 4 := by
        calc (((items.drop (n * 4)).take 4).map
              (fun ta => (start_day + n, ta.1, ta.2))).countP (fun r => decide (r.1 = d)) ≤
            (((items.drop (n * 4)).take 4).map
              (fun ta => (start_day + n, ta.1, ta.2))).length := List.countP_le_length _
          _ = ((items.drop (n * 4)).take 4).length := List.length_map _ _
          _ ≤ 4 := by rw [List.length_take]; omega
      constructor
      · omega
      · intro hnot; exact absurd ⟨by omega, by omega⟩ hnot
    · have h0 : (((items.drop (n * 4)).take 4).map
          (fun ta => (start_day + n, ta.1, ta.2))).countP (fun r => decide (r.1 = d)) = 0 := by
        rw [List.countP_eq_zero]
        intro a ha
        obtain ⟨ta, hta, rfl⟩ := List.mem_map.mp ha
        simp only [decide_eq_true_eq]
        omega
      have hle := (ih d).1
      constructor
      · omega
      · intro hnot
        have := (ih d).2 (by omega)
        omega

lemma parse_items_take (items : List (String × String)) (start_day days : ℕ) :
    parse_section_items items start_day days =
      parse_section_items (items.take (4 * days)) start_day days := by
  unfold parse_section_items
  apply List.flatMap_congr
  intro i hi
  have hi' := List.mem_range.mp hi
  congr 1
  rw [List.drop_take, List.take_take]
  congr 1
  omega

/-- C10: every record of `parse_section` carries a day number in
`[start_day, start_day + days)`, a time group of shape `\d{2}:\d{2}` and an
action that is `Raise` or `Lower`; at most 4 records share a day number;
and matches beyond the first `4*days` are silently dropped (the result only
depends on that prefix of the OCR matches). -/
theorem c10_parse_section_bounds (text : List Char) (start_day days : ℕ) :
    (∀ r ∈ parse_section text start_day days,
      start_day ≤ r.1 ∧ r.1 < start_day + days ∧
      isHHMM r.2.1 = true ∧ (r.2.2 = "Raise" ∨ r.2.2 = "Lower")) ∧
    (∀ d : ℕ,
      (parse_section text start_day days).countP (fun r => decide (r.1 = d)) ≤ 4) ∧
    parse_section text start_day days =
      parse_section_items ((findall text).take (4 * days)) start_day days := by
  refine ⟨?_, ?_, parse_items_take (findall text) start_day days⟩
  · intro r hr
    have hm := parse_items_mem hr
    have hs := findall_shape r.2 hm.2.2
    exact ⟨hm.1, hm.2.1, hs.1, hs.2⟩
  · intro d
    exact (parse_items_countP (findall text) start_day days d).1

lemma c10_mem_example :
    ((1, "07:30", "Raise") : ℕ × String × String) ∈
      parse_section ("07:30 Raise 18:05 Lower".data) 1 2 := by
  decide

/-- Witness for C10 at a concrete OCR text with two matches. -/
theorem c10_witness :
    (1 ≤ 1 ∧ 1 < 1 + 2 ∧ isHHMM "07:30" = true ∧
      (("Raise" : String) = "Raise" ∨ ("Raise" : String) = "Lower")) ∧
    (parse_section ("07:30 Raise 18:05 Lower".data) 1 2).countP
      (fun r => decide (r.1 = 1)) ≤ 4 := by
  have h := c10_parse_section_bounds ("07:30 Raise 18:05 Lower".data) 1 2
  exact ⟨h.1 (1, "07:30", "Raise") c10_mem_example, h.2.1 1⟩

end GateTimes
